import Mathlib

/-!
Shallow embedding of the electric-field routines of the notebook
`electricfields.ipynb` (repository EMtutor).

The notebook works in IEEE double precision via numpy; here the numeric
values are modelled as real numbers, with the evaluation formulas
transcribed verbatim from the code.  A second, small model `NpF` of
numpy's special values (infinities and NaN) over exact real payloads is
used for the claim about the on-cell-center singularity, where the
real-number model and numpy genuinely differ (numpy produces `inf`/`nan`,
Lean's total real arithmetic produces junk values instead).

Source layout (cell 4 and cell 16 of the notebook):

  def constructPlateEfield(chargeDensity,Lx,Ly,Nx=100,Ny=100):
      dx, dy = Lx/Nx, Ly/Ny
      xCell, yCell = np.meshgrid( np.linspace(-Lx/2+dx/2, Lx/2-dx/2, Nx),
                                  np.linspace(-Ly/2+dy/2, Ly/2-dy/2, Ny) )
      cellArea   = dx*dy
      cellCharge = chargeDensity*cellArea
      preFactor  = cellCharge/(4*np.pi*eps0)
      def Efield(x,y,z):
          Rinv3 = np.power((x-xCell)**2+(y-yCell)**2+z**2,-3/2)
          dEx = preFactor * (x-xCell) * Rinv3
          dEy = preFactor * (y-yCell) * Rinv3
          dEz = preFactor *  z        * Rinv3
          return np.sum(dEx), np.sum(dEy), np.sum(dEz)
      return np.vectorize(Efield)

  def constructEfieldParallel(chargeDensity,distance,Lx,Ly,Nx=100,Ny=100):
      Efield1 = constructPlateEfield( chargeDensity, Lx, Ly, Nx, Ny)
      Efield2 = constructPlateEfield(-chargeDensity, Lx, Ly, Nx, Ny)
      def Efield(x,y,z):
          Ex1,Ey1,Ez1 = Efield1(x,y,z+distance/2)
          Ex2,Ey2,Ez2 = Efield2(x,y,z-distance/2)
          return Ex1+Ex2, Ey1+Ey2, Ez1+Ez2
      return Efield

`eps0` is a module-level global in the notebook, read once at
construction time (when `preFactor` is computed); it is therefore an
explicit construction-time argument here.
-/

namespace EMtutor

/-- `np.linspace a b n` produces `n` evenly spaced samples from `a` to `b`
inclusive; `n = 1` yields just `a` (numpy's special case).  `npLinspace a
b n i` is the `i`-th sample (only meaningful for `i < n`). -/
noncomputable def npLinspace (a b : ℝ) (n : ℕ) (i : ℕ) : ℝ :=
  if n = 1 then a else a + i * ((b - a) / ((n : ℝ) - 1))

/-- The cell pitch `dx = Lx/Nx` (resp. `dy = Ly/Ny`) from the first line of
`constructPlateEfield`. -/
noncomputable def cellWidth (L : ℝ) (N : ℕ) : ℝ := L / N

/-- The `i`-th cell-center coordinate along an axis of length `L` divided
into `N` cells: entry `i` of `np.linspace(-L/2+d/2, L/2-d/2, N)` with
`d = L/N`.  Used for both the x axis (`xCell` rows) and the y axis
(`yCell` columns); `np.meshgrid` merely replicates these vectors into
matrices. -/
noncomputable def cellCoord (L : ℝ) (N : ℕ) (i : ℕ) : ℝ :=
  npLinspace (-L/2 + cellWidth L N/2) (L/2 - cellWidth L N/2) N i

/-- `cellArea = dx*dy`. -/
noncomputable def cellArea (Lx Ly : ℝ) (Nx Ny : ℕ) : ℝ :=
  cellWidth Lx Nx * cellWidth Ly Ny

/-- `cellCharge = chargeDensity*cellArea`. -/
noncomputable def cellCharge (chargeDensity Lx Ly : ℝ) (Nx Ny : ℕ) : ℝ :=
  chargeDensity * cellArea Lx Ly Nx Ny

/-- `preFactor = cellCharge/(4*np.pi*eps0)`, computed once at construction
time from the then-current value of the global `eps0`. -/
noncomputable def preFactor (chargeDensity Lx Ly : ℝ) (Nx Ny : ℕ) (eps0 : ℝ) : ℝ :=
  cellCharge chargeDensity Lx Ly Nx Ny / (4 * Real.pi * eps0)

/-- `np.power((x-xc)**2 + (y-yc)**2 + z**2, -3/2)` for one cell, in exact
real arithmetic (real power `r ^ (-3/2)`). -/
noncomputable def Rinv3 (ax ay az : ℝ) : ℝ :=
  (ax ^ 2 + ay ^ 2 + az ^ 2) ^ (-3/2 : ℝ)

/-- The closure `Efield` returned by `constructPlateEfield`: its free
variables are exactly the captured `xCell`, `yCell` (here the coordinate
functions plus the two grid sizes) and `preFactor` — the global `eps0`
does not occur in the body.  `np.sum` over the `Ny × Nx` meshgrid
matrices is the double sum over `j < Ny` (rows) and `i < Nx` (columns). -/
noncomputable def Efield (xCell yCell : ℕ → ℝ) (Nx Ny : ℕ) (preF : ℝ)
    (x y z : ℝ) : ℝ × ℝ × ℝ :=
  (∑ j ∈ Finset.range Ny, ∑ i ∈ Finset.range Nx,
      preF * (x - xCell i) * Rinv3 (x - xCell i) (y - yCell j) z,
   ∑ j ∈ Finset.range Ny, ∑ i ∈ Finset.range Nx,
      preF * (y - yCell j) * Rinv3 (x - xCell i) (y - yCell j) z,
   ∑ j ∈ Finset.range Ny, ∑ i ∈ Finset.range Nx,
      preF * z * Rinv3 (x - xCell i) (y - yCell j) z)

/-- The evaluator produced by a successful run of `constructPlateEfield`:
the closure `Efield` applied to the grid and prefactor built from the
parameters (success path of cell 4). -/
noncomputable def plateEfield (chargeDensity Lx Ly : ℝ) (Nx Ny : ℕ) (eps0 : ℝ) :
    ℝ → ℝ → ℝ → ℝ × ℝ × ℝ :=
  Efield (cellCoord Lx Nx) (cellCoord Ly Ny) Nx Ny
    (preFactor chargeDensity Lx Ly Nx Ny eps0)

/-- `constructEfieldParallel` (cell 16): two plates of opposite density,
the positive one at `z = +distance/2` and the negative one at
`z = -distance/2`; the returned closure shifts the query into each
plate's local frame and sums the components. -/
noncomputable def constructEfieldParallel (chargeDensity distance Lx Ly : ℝ)
    (Nx Ny : ℕ) (eps0 : ℝ) (x y z : ℝ) : ℝ × ℝ × ℝ :=
  ((plateEfield chargeDensity Lx Ly Nx Ny eps0 x y (z + distance/2)).1 +
     (plateEfield (-chargeDensity) Lx Ly Nx Ny eps0 x y (z - distance/2)).1,
   (plateEfield chargeDensity Lx Ly Nx Ny eps0 x y (z + distance/2)).2.1 +
     (plateEfield (-chargeDensity) Lx Ly Nx Ny eps0 x y (z - distance/2)).2.1,
   (plateEfield chargeDensity Lx Ly Nx Ny eps0 x y (z + distance/2)).2.2 +
     (plateEfield (-chargeDensity) Lx Ly Nx Ny eps0 x y (z - distance/2)).2.2)

/-- `np.vectorize(Efield)` applied to scalar `x`, `y` and an array of
z-values: the function is called element-wise and its three scalar
outputs are collected into three arrays. -/
noncomputable def npVectorizeZ (f : ℝ → ℝ → ℝ → ℝ × ℝ × ℝ) (x y : ℝ)
    (zs : List ℝ) : List ℝ × List ℝ × List ℝ :=
  (zs.map fun z => (f x y z).1,
   zs.map fun z => (f x y z).2.1,
   zs.map fun z => (f x y z).2.2)

/-! ### Spec-side definitions (from the claim wording, for refinement) -/

/-- Spec-side cell center: the `i`-th of `N` evenly spaced points covering
`[-L/2 + d/2, L/2 - d/2]` with pitch `d = L/N`, written directly as an
arithmetic progression. -/
noncomputable def specCenter (L : ℝ) (N : ℕ) (i : ℕ) : ℝ :=
  -L/2 + (L/N)/2 + i * (L/N)

/-- Spec-side field: the componentwise sum, over the full `Nx`-by-`Ny`
grid of cell centers, of the contributions
`(k*(x-xc)*invR3, k*(y-yc)*invR3, k*z*invR3)` with
`invR3 = ((x-xc)^2 + (y-yc)^2 + z^2)^(-3/2)` and the common prefactor
`k = sigma*dx*dy/(4*pi*eps0)`. -/
noncomputable def specPlateSum (sigma Lx Ly : ℝ) (Nx Ny : ℕ) (eps0 : ℝ)
    (x y z : ℝ) : ℝ × ℝ × ℝ :=
  (∑ i ∈ Finset.range Nx, ∑ j ∈ Finset.range Ny,
      sigma * (Lx/Nx) * (Ly/Ny) / (4 * Real.pi * eps0) * (x - specCenter Lx Nx i) *
        ((x - specCenter Lx Nx i) ^ 2 + (y - specCenter Ly Ny j) ^ 2 + z ^ 2) ^ (-3/2 : ℝ),
   ∑ i ∈ Finset.range Nx, ∑ j ∈ Finset.range Ny,
      sigma * (Lx/Nx) * (Ly/Ny) / (4 * Real.pi * eps0) * (y - specCenter Ly Ny j) *
        ((x - specCenter Lx Nx i) ^ 2 + (y - specCenter Ly Ny j) ^ 2 + z ^ 2) ^ (-3/2 : ℝ),
   ∑ i ∈ Finset.range Nx, ∑ j ∈ Finset.range Ny,
      sigma * (Lx/Nx) * (Ly/Ny) / (4 * Real.pi * eps0) * z *
        ((x - specCenter Lx Nx i) ^ 2 + (y - specCenter Ly Ny j) ^ 2 + z ^ 2) ^ (-3/2 : ℝ))

/-! ### Basic lemmas about the grid -/

/-- For indices inside the grid, the `np.linspace` cell coordinate is the
arithmetic progression `-L/2 + (L/N)/2 + i*(L/N)`. -/
theorem cellCoord_eq_specCenter (L : ℝ) {N i : ℕ} (hi : i < N) :
    cellCoord L N i = specCenter L N i := by
  unfold cellCoord npLinspace specCenter cellWidth
  rcases eq_or_ne N 1 with h1 | h1
  · subst h1
    interval_cases i
    simp
  · rw [if_neg h1]
    have hN2 : 2 ≤ N := by omega
    have hN0 : (N : ℝ) ≠ 0 := by
      have : (2 : ℝ) ≤ (N : ℝ) := by exact_mod_cast hN2
      linarith
    have hN1 : (N : ℝ) - 1 ≠ 0 := by
      have : (2 : ℝ) ≤ (N : ℝ) := by exact_mod_cast hN2
      linarith
    field_simp
    ring

/-- The grid of cell centers is symmetric about the origin:
cell `N-1-i` sits at the mirror image of cell `i`. -/
theorem cellCoord_reflect (L : ℝ) {N i : ℕ} (hi : i < N) :
    cellCoord L N (N - 1 - i) = -cellCoord L N i := by
  rw [cellCoord_eq_specCenter L (show N - 1 - i < N by omega),
    cellCoord_eq_specCenter L hi]
  unfold specCenter
  have hN0 : (N : ℝ) ≠ 0 := by
    have : N ≠ 0 := by omega
    exact_mod_cast this
  have hcast : ((N - 1 - i : ℕ) : ℝ) = (N : ℝ) - 1 - (i : ℝ) := by
    rw [Nat.sub_sub]
    rw [Nat.cast_sub (by omega : 1 + i ≤ N)]
    push_cast
    ring
  rw [hcast]
  field_simp
  ring

/-- `Rinv3` only depends on the squares of its arguments. -/
theorem Rinv3_neg_left (a b c : ℝ) : Rinv3 (-a) b c = Rinv3 a b c := by
  unfold Rinv3; rw [neg_sq]

theorem Rinv3_neg_mid (a b c : ℝ) : Rinv3 a (-b) c = Rinv3 a b c := by
  unfold Rinv3; rw [neg_sq]

theorem Rinv3_neg_right (a b c : ℝ) : Rinv3 a b (-c) = Rinv3 a b c := by
  unfold Rinv3; rw [neg_sq]

/-- The prefactor written out. -/
theorem preFactor_eq (sigma Lx Ly : ℝ) (Nx Ny : ℕ) (eps0 : ℝ) :
    preFactor sigma Lx Ly Nx Ny eps0 =
      sigma * (Lx / Nx) * (Ly / Ny) / (4 * Real.pi * eps0) := by
  unfold preFactor cellCharge cellArea cellWidth
  ring

/-! ### C1: the evaluator is the grid sum the spec describes -/

/-- C1: for every plate built with `chargeDensity sigma`, `Lx, Ly > 0`,
`Nx, Ny ≥ 1`, and every scalar query point `(x,y,z)`, the evaluator
returned by `constructPlateEfield` is exactly the componentwise sum over
the full `Nx`-by-`Ny` grid of cell centers (evenly spaced points covering
`[-Lx/2+dx/2, Lx/2-dx/2]` with `dx = Lx/Nx`, crossed with the analogous
points in y) of the contributions
`(k*(x-xc)*invR3, k*(y-yc)*invR3, k*z*invR3)` with
`invR3 = ((x-xc)^2+(y-yc)^2+z^2)^(-3/2)` and the common prefactor
`k = sigma*dx*dy/(4*pi*eps0)`. -/
theorem plateEfield_eq_specSum (sigma Lx Ly : ℝ) (Nx Ny : ℕ) (eps0 x y z : ℝ)
    (hLx : 0 < Lx) (hLy : 0 < Ly) (hNx : 1 ≤ Nx) (hNy : 1 ≤ Ny) :
    plateEfield sigma Lx Ly Nx Ny eps0 x y z =
      specPlateSum sigma Lx Ly Nx Ny eps0 x y z := by
  unfold plateEfield Efield specPlateSum
  simp only [Prod.mk.injEq]
  refine ⟨?_, ?_, ?_⟩
  all_goals
    rw [Finset.sum_comm]
    refine Finset.sum_congr rfl fun i hi => Finset.sum_congr rfl fun j hj => ?_
    rw [Finset.mem_range] at hi hj
    rw [cellCoord_eq_specCenter Lx hi, cellCoord_eq_specCenter Ly hj,
      preFactor_eq]
    unfold Rinv3
    rfl

/-- Witness for C1 at a concrete plate and query point. -/
theorem plateEfield_eq_specSum_witness :
    (0 : ℝ) < 2 ∧ (0 : ℝ) < 3 ∧ (1 : ℕ) ≤ 2 ∧ (1 : ℕ) ≤ 3 ∧
      plateEfield 1 2 3 2 3 1 (1/2) (1/3) 1 =
        specPlateSum 1 2 3 2 3 1 (1/2) (1/3) 1 :=
  ⟨by norm_num, by norm_num, by norm_num, by norm_num,
    plateEfield_eq_specSum 1 2 3 2 3 1 (1/2) (1/3) 1
      (by norm_num) (by norm_num) (by norm_num) (by norm_num)⟩

/-! ### C4: per-cell charge and total charge conservation -/

/-- C4: the per-cell charge computed at construction is
`chargeDensity*(Lx/Nx)*(Ly/Ny)` (one scalar, shared by every cell), and
summing it over all `Nx*Ny` cells gives back exactly
`chargeDensity*Lx*Ly` in real arithmetic. -/
theorem cellCharge_conservation (sigma Lx Ly : ℝ) (Nx Ny : ℕ)
    (hNx : 1 ≤ Nx) (hNy : 1 ≤ Ny) :
    cellCharge sigma Lx Ly Nx Ny = sigma * (Lx / Nx) * (Ly / Ny) ∧
      (∑ _i ∈ Finset.range Nx, ∑ _j ∈ Finset.range Ny,
          cellCharge sigma Lx Ly Nx Ny) = sigma * Lx * Ly := by
  have h1 : cellCharge sigma Lx Ly Nx Ny = sigma * (Lx / Nx) * (Ly / Ny) := by
    unfold cellCharge cellArea cellWidth
    ring
  refine ⟨h1, ?_⟩
  have hNx0 : (Nx : ℝ) ≠ 0 := by
    have : Nx ≠ 0 := by omega
    exact_mod_cast this
  have hNy0 : (Ny : ℝ) ≠ 0 := by
    have : Ny ≠ 0 := by omega
    exact_mod_cast this
  simp only [Finset.sum_const, Finset.card_range, nsmul_eq_mul, h1]
  field_simp
  ring

/-- Witness for C4 at a concrete configuration. -/
theorem cellCharge_conservation_witness :
    (1 : ℕ) ≤ 3 ∧ (1 : ℕ) ≤ 5 ∧
      (cellCharge 2 7 11 3 5 = 2 * (7/(3:ℕ)) * (11/(5:ℕ)) ∧
        (∑ _i ∈ Finset.range 3, ∑ _j ∈ Finset.range 5, cellCharge 2 7 11 3 5) =
          2 * 7 * 11) :=
  ⟨by norm_num, by norm_num,
    cellCharge_conservation 2 7 11 3 5 (by norm_num) (by norm_num)⟩

/-! ### C5: the composite evaluator is the sum of the two shifted plates -/

/-- C5: at every query point, the composite two-plate evaluator returns,
component by component, the sum of the single-plate evaluator for density
`+chargeDensity` evaluated at `(x, y, z + distance/2)` and the
single-plate evaluator for density `-chargeDensity` evaluated at
`(x, y, z - distance/2)`, both built with the same `Lx, Ly, Nx, Ny` (and
the same construction-time `eps0`). -/
theorem parallel_superposition (sigma distance Lx Ly : ℝ) (Nx Ny : ℕ)
    (eps0 x y z : ℝ) :
    constructEfieldParallel sigma distance Lx Ly Nx Ny eps0 x y z =
      ((plateEfield sigma Lx Ly Nx Ny eps0 x y (z + distance/2)).1 +
         (plateEfield (-sigma) Lx Ly Nx Ny eps0 x y (z - distance/2)).1,
       (plateEfield sigma Lx Ly Nx Ny eps0 x y (z + distance/2)).2.1 +
         (plateEfield (-sigma) Lx Ly Nx Ny eps0 x y (z - distance/2)).2.1,
       (plateEfield sigma Lx Ly Nx Ny eps0 x y (z + distance/2)).2.2 +
         (plateEfield (-sigma) Lx Ly Nx Ny eps0 x y (z - distance/2)).2.2) := rfl

/-! ### C10: the evaluator reads eps0 only through the prefactor -/

/-- C10: the returned evaluator depends on the global `eps0` only through
`preFactor`, computed once at construction: the closure `Efield` has the
captured grid and prefactor as its only inputs (no `eps0` parameter at
all), and any two construction-time `eps0` values yielding the same
prefactor yield identical outputs at every query point.  Reassigning the
global after construction changes no input of the closure, hence no
output. -/
theorem eps0_only_through_preFactor (sigma Lx Ly : ℝ) (Nx Ny : ℕ)
    (e1 e2 x y z : ℝ) :
    plateEfield sigma Lx Ly Nx Ny e1 =
      Efield (cellCoord Lx Nx) (cellCoord Ly Ny) Nx Ny
        (preFactor sigma Lx Ly Nx Ny e1) ∧
    (preFactor sigma Lx Ly Nx Ny e1 = preFactor sigma Lx Ly Nx Ny e2 →
      plateEfield sigma Lx Ly Nx Ny e1 x y z =
        plateEfield sigma Lx Ly Nx Ny e2 x y z) := by
  refine ⟨rfl, fun h => ?_⟩
  unfold plateEfield
  rw [h]

/-- Witness for C10: a zero-density plate has the same (zero) prefactor
under two different `eps0` values, hence identical outputs. -/
theorem eps0_only_through_preFactor_witness :
    plateEfield 0 1 1 1 1 1 0 0 1 = plateEfield 0 1 1 1 1 2 0 0 1 :=
  (eps0_only_through_preFactor 0 1 1 1 1 1 2 0 0 1).2
    (by unfold preFactor cellCharge cellArea cellWidth; norm_num)

/-! ### C2: the code performs no construction-time validation -/

/-- Double-sum reflection with a sign flip: if reflecting both grid
indices negates the summand, the two double sums are negatives. -/
theorem sum_sum_reflect_neg {F G : ℕ → ℕ → ℝ} {Nx Ny : ℕ}
    (h : ∀ i, i < Nx → ∀ j, j < Ny → F (Nx - 1 - i) (Ny - 1 - j) = -(G i j)) :
    (∑ j ∈ Finset.range Ny, ∑ i ∈ Finset.range Nx, F i j) =
      -(∑ j ∈ Finset.range Ny, ∑ i ∈ Finset.range Nx, G i j) := by
  rw [← Finset.sum_neg_distrib,
    ← Finset.sum_range_reflect (fun j => ∑ i ∈ Finset.range Nx, F i j) Ny]
  refine Finset.sum_congr rfl fun j hj => ?_
  rw [Finset.mem_range] at hj
  rw [← Finset.sum_neg_distrib,
    ← Finset.sum_range_reflect (fun i => F i (Ny - 1 - j)) Nx]
  refine Finset.sum_congr rfl fun i hi => ?_
  rw [Finset.mem_range] at hi
  exact h i hi j hj

/-- Double-sum reflection without sign: if reflecting both grid indices
preserves the summand, the two double sums agree. -/
theorem sum_sum_reflect_eq {F G : ℕ → ℕ → ℝ} {Nx Ny : ℕ}
    (h : ∀ i, i < Nx → ∀ j, j < Ny → F (Nx - 1 - i) (Ny - 1 - j) = G i j) :
    (∑ j ∈ Finset.range Ny, ∑ i ∈ Finset.range Nx, F i j) =
      ∑ j ∈ Finset.range Ny, ∑ i ∈ Finset.range Nx, G i j := by
  rw [← Finset.sum_range_reflect (fun j => ∑ i ∈ Finset.range Nx, F i j) Ny]
  refine Finset.sum_congr rfl fun j hj => ?_
  rw [Finset.mem_range] at hj
  rw [← Finset.sum_range_reflect (fun i => F i (Ny - 1 - j)) Nx]
  refine Finset.sum_congr rfl fun i hi => ?_
  rw [Finset.mem_range] at hi
  exact h i hi j hj

/-- A sum whose summand is negated by index reflection vanishes. -/
theorem sum_reflect_neg_eq_zero {f : ℕ → ℝ} {N : ℕ}
    (h : ∀ i, i < N → f (N - 1 - i) = -(f i)) :
    (∑ i ∈ Finset.range N, f i) = 0 := by
  have h2 : (∑ i ∈ Finset.range N, f i) = -(∑ i ∈ Finset.range N, f i) := by
    conv_lhs => rw [← Finset.sum_range_reflect]
    rw [← Finset.sum_neg_distrib]
    exact Finset.sum_congr rfl fun i hi => h i (Finset.mem_range.mp hi)
  linarith

/-- For `0 ≤ a`, `(a^2) ^ (3/2 : ℝ) = a^3`. -/
theorem sq_rpow_three_half {a : ℝ} (ha : 0 ≤ a) :
    (a ^ 2 : ℝ) ^ (3/2 : ℝ) = a ^ 3 := by
  rw [show (3/2 : ℝ) = (1/2) * 3 by norm_num, Real.rpow_mul (by positivity),
    ← Real.sqrt_eq_rpow, Real.sqrt_sq ha,
    show (3 : ℝ) = ((3 : ℕ) : ℝ) by norm_num, Real.rpow_natCast]

/-- For `0 ≤ a`, `(a^2) ^ (-3/2 : ℝ) = (a^3)⁻¹`. -/
theorem sq_rpow_neg_three_half {a : ℝ} (ha : 0 ≤ a) :
    (a ^ 2 : ℝ) ^ (-3/2 : ℝ) = (a ^ 3)⁻¹ := by
  rw [show (-3/2 : ℝ) = -(3/2) by norm_num, Real.rpow_neg (by positivity),
    sq_rpow_three_half ha]

/-! ### Physical symmetries of the single plate -/

/-- Flipping the plate density negates the z-component (the whole field,
via the prefactor, but the z-component is what the capacitor claim
needs). -/
theorem plateEfield_neg_sigma_Ez (sigma Lx Ly : ℝ) (Nx Ny : ℕ) (eps0 x y z : ℝ) :
    (plateEfield (-sigma) Lx Ly Nx Ny eps0 x y z).2.2 =
      -(plateEfield sigma Lx Ly Nx Ny eps0 x y z).2.2 := by
  unfold plateEfield Efield
  dsimp only
  have hpre : preFactor (-sigma) Lx Ly Nx Ny eps0 =
      -preFactor sigma Lx Ly Nx Ny eps0 := by
    unfold preFactor cellCharge cellArea
    ring
  rw [hpre, ← Finset.sum_neg_distrib]
  refine Finset.sum_congr rfl fun j _ => ?_
  rw [← Finset.sum_neg_distrib]
  exact Finset.sum_congr rfl fun i _ => by ring

/-- The z-component of a single plate's field is odd in `z` (at any
horizontal position): the plate lies in the plane `z = 0`. -/
theorem plateEfield_Ez_odd_in_z (sigma Lx Ly : ℝ) (Nx Ny : ℕ) (eps0 x y z : ℝ) :
    (plateEfield sigma Lx Ly Nx Ny eps0 x y (-z)).2.2 =
      -(plateEfield sigma Lx Ly Nx Ny eps0 x y z).2.2 := by
  unfold plateEfield Efield
  dsimp only
  rw [← Finset.sum_neg_distrib]
  refine Finset.sum_congr rfl fun j _ => ?_
  rw [← Finset.sum_neg_distrib]
  refine Finset.sum_congr rfl fun i _ => ?_
  rw [Rinv3_neg_right]
  ring

/-- On the symmetry axis `x = 0`, the x-component vanishes: the mirror
cell `Nx-1-i` cancels cell `i`. -/
theorem plateEfield_Ex_zero_on_axis (sigma Lx Ly : ℝ) (Nx Ny : ℕ) (eps0 y z : ℝ) :
    (plateEfield sigma Lx Ly Nx Ny eps0 0 y z).1 = 0 := by
  unfold plateEfield Efield
  dsimp only
  refine Finset.sum_eq_zero fun j _ => ?_
  refine sum_reflect_neg_eq_zero fun i hi => ?_
  rw [cellCoord_reflect Lx hi,
    show (0:ℝ) - -cellCoord Lx Nx i = -(0 - cellCoord Lx Nx i) by ring,
    Rinv3_neg_left]
  ring

/-- On the symmetry axis `y = 0`, the y-component vanishes. -/
theorem plateEfield_Ey_zero_on_axis (sigma Lx Ly : ℝ) (Nx Ny : ℕ) (eps0 x z : ℝ) :
    (plateEfield sigma Lx Ly Nx Ny eps0 x 0 z).2.1 = 0 := by
  unfold plateEfield Efield
  dsimp only
  rw [Finset.sum_comm]
  refine Finset.sum_eq_zero fun i _ => ?_
  refine sum_reflect_neg_eq_zero fun j hj => ?_
  rw [cellCoord_reflect Ly hj,
    show (0:ℝ) - -cellCoord Ly Ny j = -(0 - cellCoord Ly Ny j) by ring,
    Rinv3_neg_mid]
  ring

/-! ### C3: on-axis Ez of the capacitor is even in z, not odd -/

/-- Counterexample to C3 as stated: for the capacitor built with
`chargeDensity = 1`, `distance = 2`, `Lx = Ly = 1`, `Nx = Ny = 1`,
`eps0 = 1`, the on-axis values at `z = 2` and `z = -2` (where every
per-cell `r2` is 1 or 9, so no query touches a cell center and the
real-arithmetic model agrees with the code up to roundoff) satisfy
`Ez(0,0,2) = Ez(0,0,-2) = 1/(36*pi) - 1/(4*pi) = -2/(9*pi) ≠ 0`, so
`Ez(0,0,z) = -Ez(0,0,-z)` fails at `z = 2`. -/
theorem parallel_Ez_not_odd_on_axis :
    ¬ ((constructEfieldParallel 1 2 1 1 1 1 1 0 0 2).2.2 =
        -(constructEfieldParallel 1 2 1 1 1 1 1 0 0 (-2)).2.2) := by
  have h9 : ((9:ℝ)) ^ (-3/2 : ℝ) = 1/27 := by
    rw [show (9:ℝ) = 3^2 by norm_num,
      sq_rpow_neg_three_half (by norm_num : (0:ℝ) ≤ 3)]
    norm_num
  have h1 : ((1:ℝ)) ^ (-3/2 : ℝ) = 1 := Real.one_rpow _
  have hc : cellCoord 1 1 0 = 0 := by
    unfold cellCoord npLinspace cellWidth
    norm_num
  have hEza : (plateEfield 1 1 1 1 1 1 0 0 3).2.2 = 1/(36*Real.pi) := by
    unfold plateEfield Efield Rinv3
    simp only [Finset.sum_range_one, hc]
    rw [show ((0:ℝ) - 0)^2 + ((0:ℝ) - 0)^2 + (3:ℝ)^2 = 9 by norm_num, h9]
    unfold preFactor cellCharge cellArea cellWidth
    have hpi := Real.pi_ne_zero
    field_simp
    ring
  have hEzb : (plateEfield (-1) 1 1 1 1 1 0 0 1).2.2 = -(1/(4*Real.pi)) := by
    unfold plateEfield Efield Rinv3
    simp only [Finset.sum_range_one, hc]
    rw [show ((0:ℝ) - 0)^2 + ((0:ℝ) - 0)^2 + (1:ℝ)^2 = 1 by norm_num, h1]
    unfold preFactor cellCharge cellArea cellWidth
    have hpi := Real.pi_ne_zero
    field_simp
  have hEzc : (plateEfield 1 1 1 1 1 1 0 0 (-1)).2.2 = -(1/(4*Real.pi)) := by
    unfold plateEfield Efield Rinv3
    simp only [Finset.sum_range_one, hc]
    rw [show ((0:ℝ) - 0)^2 + ((0:ℝ) - 0)^2 + (-1:ℝ)^2 = 1 by norm_num, h1]
    unfold preFactor cellCharge cellArea cellWidth
    have hpi := Real.pi_ne_zero
    field_simp
  have hEzd : (plateEfield (-1) 1 1 1 1 1 0 0 (-3)).2.2 = 1/(36*Real.pi) := by
    unfold plateEfield Efield Rinv3
    simp only [Finset.sum_range_one, hc]
    rw [show ((0:ℝ) - 0)^2 + ((0:ℝ) - 0)^2 + (-3:ℝ)^2 = 9 by norm_num, h9]
    unfold preFactor cellCharge cellArea cellWidth
    have hpi := Real.pi_ne_zero
    field_simp
    ring
  have hL : (constructEfieldParallel 1 2 1 1 1 1 1 0 0 2).2.2 =
      1/(36*Real.pi) - 1/(4*Real.pi) := by
    unfold constructEfieldParallel
    dsimp only
    rw [show (2:ℝ) + 2/2 = 3 by norm_num, show (2:ℝ) - 2/2 = 1 by norm_num,
      hEza, hEzb]
    ring
  have hR : (constructEfieldParallel 1 2 1 1 1 1 1 0 0 (-2)).2.2 =
      1/(36*Real.pi) - 1/(4*Real.pi) := by
    unfold constructEfieldParallel
    dsimp only
    rw [show (-2:ℝ) + 2/2 = -1 by norm_num, show (-2:ℝ) - 2/2 = -3 by norm_num,
      hEzc, hEzd]
    ring
  intro h
  rw [hL, hR] at h
  have h3 : (1:ℝ)/(36*Real.pi) - 1/(4*Real.pi) = 0 := by linarith
  have hpi := Real.pi_pos
  have h4 : (1:ℝ)/(36*Real.pi) - 1/(4*Real.pi) < 0 := by
    rw [div_sub_div _ _ (by positivity : (36:ℝ)*Real.pi ≠ 0)
      (by positivity : (4:ℝ)*Real.pi ≠ 0)]
    apply div_neg_of_neg_of_pos
    · nlinarith
    · positivity
  linarith

/-- C3 amended: for every parallel-plate evaluator built by
`constructEfieldParallel`, the z-component of the composite field on the
axis is an even function of z about the plate midplane:
`Ez(0,0,z) = Ez(0,0,-z)` (the claim's odd symmetry is the one that
fails; evenness is what the construction satisfies). -/
theorem parallel_Ez_even_on_axis (sigma distance Lx Ly : ℝ) (Nx Ny : ℕ)
    (eps0 z : ℝ) :
    (constructEfieldParallel sigma distance Lx Ly Nx Ny eps0 0 0 z).2.2 =
      (constructEfieldParallel sigma distance Lx Ly Nx Ny eps0 0 0 (-z)).2.2 := by
  unfold constructEfieldParallel
  dsimp only
  rw [show -z + distance/2 = -(z - distance/2) by ring,
    show -z - distance/2 = -(z + distance/2) by ring,
    plateEfield_Ez_odd_in_z, plateEfield_Ez_odd_in_z,
    plateEfield_neg_sigma_Ez, plateEfield_neg_sigma_Ez]
  ring

/-! ### C7: point symmetry of a centered plate -/

/-- C7: for a square plate (`Lx = Ly`) centered at the origin with
uniform density, evaluating at `(-x,-y,z)` gives `(-Ex,-Ey,Ez)` where
`(Ex,Ey,Ez)` is the value at `(x,y,z)` — point symmetry through the
origin, exact in real arithmetic.  (The grid itself is centrally
symmetric, so the squareness hypothesis of the claim is not even
needed.) -/
theorem plateEfield_point_symmetry (sigma Lx Ly : ℝ) (Nx Ny : ℕ)
    (eps0 x y z : ℝ) (hsquare : Lx = Ly) :
    plateEfield sigma Lx Ly Nx Ny eps0 (-x) (-y) z =
      (-(plateEfield sigma Lx Ly Nx Ny eps0 x y z).1,
       -(plateEfield sigma Lx Ly Nx Ny eps0 x y z).2.1,
       (plateEfield sigma Lx Ly Nx Ny eps0 x y z).2.2) := by
  unfold plateEfield Efield
  simp only [Prod.mk.injEq]
  refine ⟨?_, ?_, ?_⟩
  · refine sum_sum_reflect_neg fun i hi j hj => ?_
    rw [cellCoord_reflect Lx hi, cellCoord_reflect Ly hj,
      show -x - -cellCoord Lx Nx i = -(x - cellCoord Lx Nx i) by ring,
      show -y - -cellCoord Ly Ny j = -(y - cellCoord Ly Ny j) by ring,
      Rinv3_neg_left, Rinv3_neg_mid]
    ring
  · refine sum_sum_reflect_neg fun i hi j hj => ?_
    rw [cellCoord_reflect Lx hi, cellCoord_reflect Ly hj,
      show -x - -cellCoord Lx Nx i = -(x - cellCoord Lx Nx i) by ring,
      show -y - -cellCoord Ly Ny j = -(y - cellCoord Ly Ny j) by ring,
      Rinv3_neg_left, Rinv3_neg_mid]
    ring
  · refine sum_sum_reflect_eq fun i hi j hj => ?_
    rw [cellCoord_reflect Lx hi, cellCoord_reflect Ly hj,
      show -x - -cellCoord Lx Nx i = -(x - cellCoord Lx Nx i) by ring,
      show -y - -cellCoord Ly Ny j = -(y - cellCoord Ly Ny j) by ring,
      Rinv3_neg_left, Rinv3_neg_mid]

/-- Witness for C7 at a concrete square plate and query point. -/
theorem plateEfield_point_symmetry_witness :
    plateEfield 1 3 3 2 2 1 (-1) (-2) 1 =
      (-(plateEfield 1 3 3 2 2 1 1 2 1).1,
       -(plateEfield 1 3 3 2 2 1 1 2 1).2.1,
       (plateEfield 1 3 3 2 2 1 1 2 1).2.2) :=
  plateEfield_point_symmetry 1 3 3 2 2 1 1 2 1 rfl

/-! ### C8: vectorized evaluation over an array of z values -/

/-- C8: evaluating a constructed evaluator through `np.vectorize` with
scalar `x`, `y` and an array of `N` z-values returns three output arrays
each of length `N`, and the `i`-th entries of the three outputs are
exactly the three components of the scalar evaluation at `(x, y, z_i)`. -/
theorem npVectorizeZ_elementwise (sigma Lx Ly : ℝ) (Nx Ny : ℕ) (eps0 x y : ℝ)
    (zs : List ℝ) (i : ℕ) (h : i < zs.length) :
    ((npVectorizeZ (plateEfield sigma Lx Ly Nx Ny eps0) x y zs).1.length = zs.length ∧
     (npVectorizeZ (plateEfield sigma Lx Ly Nx Ny eps0) x y zs).2.1.length = zs.length ∧
     (npVectorizeZ (plateEfield sigma Lx Ly Nx Ny eps0) x y zs).2.2.length = zs.length) ∧
    ((npVectorizeZ (plateEfield sigma Lx Ly Nx Ny eps0) x y zs).1.getD i 0,
     (npVectorizeZ (plateEfield sigma Lx Ly Nx Ny eps0) x y zs).2.1.getD i 0,
     (npVectorizeZ (plateEfield sigma Lx Ly Nx Ny eps0) x y zs).2.2.getD i 0) =
      plateEfield sigma Lx Ly Nx Ny eps0 x y (zs.getD i 0) := by
  unfold npVectorizeZ
  dsimp only
  refine ⟨⟨by simp, by simp, by simp⟩, ?_⟩
  rw [List.getD_eq_getElem _ _ (by simpa using h),
    List.getD_eq_getElem _ _ (by simpa using h),
    List.getD_eq_getElem _ _ (by simpa using h),
    List.getD_eq_getElem _ _ h]
  simp

/-- Witness for C8 at a concrete evaluator, array and index. -/
theorem npVectorizeZ_elementwise_witness :
    (((npVectorizeZ (plateEfield 1 3 3 2 2 1) 0 0 [1, 2, 3]).1.length = 3 ∧
      (npVectorizeZ (plateEfield 1 3 3 2 2 1) 0 0 [1, 2, 3]).2.1.length = 3 ∧
      (npVectorizeZ (plateEfield 1 3 3 2 2 1) 0 0 [1, 2, 3]).2.2.length = 3) ∧
     ((npVectorizeZ (plateEfield 1 3 3 2 2 1) 0 0 [1, 2, 3]).1.getD 1 0,
      (npVectorizeZ (plateEfield 1 3 3 2 2 1) 0 0 [1, 2, 3]).2.1.getD 1 0,
      (npVectorizeZ (plateEfield 1 3 3 2 2 1) 0 0 [1, 2, 3]).2.2.getD 1 0) =
       plateEfield 1 3 3 2 2 1 0 0 ([1, 2, 3].getD 1 0)) :=
  npVectorizeZ_elementwise 1 3 3 2 2 1 0 0 [1, 2, 3] 1 (by norm_num)

/-! ### A model of numpy special values, for the singularity claim -/

/-- Numpy double-precision values with exact real payloads: finite
values, the two infinities, and NaN.  Rounding is not modelled; the
special-value propagation rules are IEEE-754's, which is all the
singularity claim depends on. -/
inductive NpF
  | fin : ℝ → NpF
  | pinf : NpF
  | ninf : NpF
  | nan : NpF

namespace NpF

/-- IEEE addition on special values (exact payload arithmetic);
`inf + (-inf) = nan`, `nan` absorbs. -/
noncomputable def add : NpF → NpF → NpF
  | nan, _ => nan
  | _, nan => nan
  | fin a, fin b => fin (a + b)
  | fin _, pinf => pinf
  | fin _, ninf => ninf
  | pinf, fin _ => pinf
  | ninf, fin _ => ninf
  | pinf, pinf => pinf
  | ninf, ninf => ninf
  | pinf, ninf => nan
  | ninf, pinf => nan

/-- IEEE negation. -/
noncomputable def neg : NpF → NpF
  | fin a => fin (-a)
  | pinf => ninf
  | ninf => pinf
  | nan => nan

/-- IEEE subtraction. -/
noncomputable def sub (a b : NpF) : NpF := a.add b.neg

/-- IEEE multiplication; `0 * inf = nan`, `nan` absorbs. -/
noncomputable def mul : NpF → NpF → NpF
  | nan, _ => nan
  | _, nan => nan
  | fin a, fin b => fin (a * b)
  | fin a, pinf => if 0 < a then pinf else if a < 0 then ninf else nan
  | fin a, ninf => if 0 < a then ninf else if a < 0 then pinf else nan
  | pinf, fin a => if 0 < a then pinf else if a < 0 then ninf else nan
  | ninf, fin a => if 0 < a then ninf else if a < 0 then pinf else nan
  | pinf, pinf => pinf
  | ninf, ninf => pinf
  | pinf, ninf => ninf
  | ninf, pinf => ninf

/-- `np.power(b, -3/2)`: a positive finite base gives the real power, a
zero base gives `inf` (numpy emits a divide-by-zero warning and returns
`inf` — no exception), a negative base gives `nan` (fractional power of
a negative number), and `inf ** -1.5 = 0`. -/
noncomputable def powNeg32 : NpF → NpF
  | fin a => if 0 < a then fin (a ^ (-3/2 : ℝ)) else if a = 0 then pinf else nan
  | pinf => fin 0
  | ninf => nan
  | nan => nan

/-- `np.sum` of an element list.  (numpy associates the additions
pairwise; in this exact model association only matters through special
values, and `nan` absorbs in every association, which is the only case
the singularity theorem uses.) -/
noncomputable def npSum (l : List NpF) : NpF := l.foldl add (fin 0)

theorem nan_add (a : NpF) : add nan a = nan := by cases a <;> rfl

theorem add_nan (a : NpF) : add a nan = nan := by cases a <;> rfl

theorem foldl_add_nan (l : List NpF) : l.foldl add nan = nan := by
  induction l with
  | nil => rfl
  | cons x xs ih => rw [List.foldl_cons, nan_add, ih]

/-- A NaN element makes the whole sum NaN, whatever the other elements
are. -/
theorem foldl_add_of_mem_nan (l : List NpF) (acc : NpF) (h : nan ∈ l) :
    l.foldl add acc = nan := by
  induction l generalizing acc with
  | nil => cases h
  | cons x xs ih =>
    rcases List.mem_cons.mp h with h1 | h2
    · rw [List.foldl_cons, ← h1, add_nan, foldl_add_nan]
    · exact ih (add acc x) h2

theorem npSum_eq_nan {l : List NpF} (h : nan ∈ l) : npSum l = nan :=
  foldl_add_of_mem_nan l (fin 0) h

end NpF

/-- The row-major list of grid cell indices that `np.sum` ranges over. -/
def gridCells (Nx Ny : ℕ) : List (ℕ × ℕ) :=
  (List.range Ny).flatMap fun j => (List.range Nx).map fun i => (i, j)

/-- `np.power((x-xc)**2+(y-yc)**2+z**2, -3/2)` for one cell, in numpy
special-value semantics. -/
noncomputable def Rinv3FP (xCell yCell : ℕ → ℝ) (x y z : NpF) (c : ℕ × ℕ) : NpF :=
  ((((x.sub (.fin (xCell c.1))).mul (x.sub (.fin (xCell c.1)))).add
      ((y.sub (.fin (yCell c.2))).mul (y.sub (.fin (yCell c.2))))).add
    (z.mul z)).powNeg32

/-- The body of the closure `Efield` executed in numpy special-value
semantics: the captured grid coordinates and prefactor are exact reals,
the query point is a numpy scalar, and no branch, clamp or mask is
applied anywhere — the evaluation is total. -/
noncomputable def EfieldFP (xCell yCell : ℕ → ℝ) (Nx Ny : ℕ) (preF : ℝ)
    (x y z : NpF) : NpF × NpF × NpF :=
  (NpF.npSum ((gridCells Nx Ny).map fun c =>
      ((NpF.fin preF).mul (x.sub (.fin (xCell c.1)))).mul (Rinv3FP xCell yCell x y z c)),
   NpF.npSum ((gridCells Nx Ny).map fun c =>
      ((NpF.fin preF).mul (y.sub (.fin (yCell c.2)))).mul (Rinv3FP xCell yCell x y z c)),
   NpF.npSum ((gridCells Nx Ny).map fun c =>
      ((NpF.fin preF).mul z).mul (Rinv3FP xCell yCell x y z c)))

/-! ### C6: a query on a cell center yields a non-finite value, no error -/

/-- C6: when the query point coincides exactly with a grid cell center
(so `r2 = 0` for that cell), evaluation completes without raising and
without clamping or masking, and all three returned components are NaN —
a non-finite floating-point value that propagates to the caller as an
ordinary value (for the singular cell, `r2 = 0` gives `Rinv3 = inf`, and
the contribution `preFactor * 0 * inf` is NaN, which absorbs through the
sum). -/
theorem EfieldFP_singularity (sigma Lx Ly : ℝ) (Nx Ny : ℕ) (eps0 : ℝ)
    (i j : ℕ) (hi : i < Nx) (hj : j < Ny) :
    EfieldFP (cellCoord Lx Nx) (cellCoord Ly Ny) Nx Ny
        (preFactor sigma Lx Ly Nx Ny eps0)
        (.fin (cellCoord Lx Nx i)) (.fin (cellCoord Ly Ny j)) (.fin 0) =
      (.nan, .nan, .nan) := by
  have hmem : (i, j) ∈ gridCells Nx Ny := by
    unfold gridCells
    refine List.mem_flatMap.mpr ⟨j, List.mem_range.mpr hj, ?_⟩
    exact List.mem_map.mpr ⟨i, List.mem_range.mpr hi, rfl⟩
  have hsub : ∀ r : ℝ, NpF.sub (.fin r) (.fin r) = .fin 0 := fun r => by
    simp [NpF.sub, NpF.neg, NpF.add]
  have hrinv : Rinv3FP (cellCoord Lx Nx) (cellCoord Ly Ny)
      (.fin (cellCoord Lx Nx i)) (.fin (cellCoord Ly Ny j)) (.fin 0) (i, j) =
      NpF.pinf := by
    unfold Rinv3FP
    dsimp only
    rw [hsub, hsub]
    simp [NpF.mul, NpF.add, NpF.powNeg32]
  unfold EfieldFP
  simp only [Prod.mk.injEq]
  refine ⟨?_, ?_, ?_⟩
  · apply NpF.npSum_eq_nan
    refine List.mem_map.mpr ⟨(i, j), hmem, ?_⟩
    dsimp only
    rw [hsub, hrinv]
    simp [NpF.mul]
  · apply NpF.npSum_eq_nan
    refine List.mem_map.mpr ⟨(i, j), hmem, ?_⟩
    dsimp only
    rw [hsub, hrinv]
    simp [NpF.mul]
  · apply NpF.npSum_eq_nan
    refine List.mem_map.mpr ⟨(i, j), hmem, ?_⟩
    dsimp only
    rw [hrinv]
    simp [NpF.mul]

/-- Witness for C6: the 1-by-1 unit plate queried exactly at its single
cell center returns NaN in all three components. -/
theorem EfieldFP_singularity_witness :
    EfieldFP (cellCoord 1 1) (cellCoord 1 1) 1 1 (preFactor 1 1 1 1 1 1)
        (.fin (cellCoord 1 1 0)) (.fin (cellCoord 1 1 0)) (.fin 0) =
      (.nan, .nan, .nan) :=
  EfieldFP_singularity 1 1 1 1 1 1 0 0 (by norm_num) (by norm_num)

/-! ### C9: far-field convergence to the point-charge field -/

/-- Antitonicity of `r ^ (-3/2)` on the positive reals. -/
theorem rpow_neg_three_half_antitone {u v : ℝ} (hu : 0 < u) (huv : u ≤ v) :
    v ^ (-3/2 : ℝ) ≤ u ^ (-3/2 : ℝ) := by
  rw [show (-3/2 : ℝ) = -(3/2) by norm_num, Real.rpow_neg hu.le,
    Real.rpow_neg (hu.le.trans huv)]
  exact inv_anti₀ (Real.rpow_pos_of_pos hu _)
    (Real.rpow_le_rpow hu.le huv (by norm_num))

/-- `x ^ (3/2) ≤ M` reduces to the rational inequality `x^3 ≤ M^2`. -/
theorem rpow_three_half_le {x M : ℝ} (hx : 0 ≤ x) (hM : 0 ≤ M)
    (h : x ^ 3 ≤ M ^ 2) : x ^ (3/2 : ℝ) ≤ M := by
  rw [show (3/2 : ℝ) = 3 * (1/2) by norm_num,
    show (3 : ℝ) = ((3 : ℕ) : ℝ) by norm_num, Real.rpow_mul hx,
    Real.rpow_natCast, ← Real.sqrt_eq_rpow]
  calc Real.sqrt (x ^ 3) ≤ Real.sqrt (M ^ 2) := Real.sqrt_le_sqrt h
    _ = M := Real.sqrt_sq hM

/-- The grid coordinates of the 3-by-3 plate at 100-by-100 resolution. -/
theorem cellCoord_3_100 {i : ℕ} (hi : i < 100) :
    cellCoord 3 100 i = -1.485 + 0.03 * i := by
  rw [cellCoord_eq_specCenter 3 hi]
  unfold specCenter
  push_cast
  norm_num
  ring

/-- Each cell of the 3-by-3 plate sits within 1.485 of the axis. -/
theorem cellCoord_3_100_sq_bound {i : ℕ} (hi : i < 100) :
    (cellCoord 3 100 i) ^ 2 ≤ 2.205225 := by
  rw [cellCoord_3_100 hi]
  have h1 : (i : ℝ) ≤ 99 := by
    have : i ≤ 99 := by omega
    exact_mod_cast this
  have h2 : (0 : ℝ) ≤ (i : ℝ) := Nat.cast_nonneg i
  have ha : (-1.485 : ℝ) ≤ -1.485 + 0.03 * i := by linarith
  have hb : (-1.485 : ℝ) + 0.03 * i ≤ 1.485 := by linarith
  nlinarith [ha, hb]

/-- Two-sided bounds on the inverse-cube kernel at the far query point
`(0, 0, 100)`, uniform over the grid cells of the 3-by-3 plate. -/
theorem Rinv3_query_bounds {i j : ℕ} (hi : i < 100) (hj : j < 100) :
    (999 : ℝ)/10^9 ≤ Rinv3 (0 - cellCoord 3 100 i) (0 - cellCoord 3 100 j) 100 ∧
      Rinv3 (0 - cellCoord 3 100 i) (0 - cellCoord 3 100 j) 100 ≤ 1/10^6 := by
  have hbi := cellCoord_3_100_sq_bound hi
  have hbj := cellCoord_3_100_sq_bound hj
  have hi0 : (0 : ℝ) ≤ (cellCoord 3 100 i) ^ 2 := sq_nonneg _
  have hj0 : (0 : ℝ) ≤ (cellCoord 3 100 j) ^ 2 := sq_nonneg _
  unfold Rinv3
  have hbase : (0 - cellCoord 3 100 i) ^ 2 + (0 - cellCoord 3 100 j) ^ 2 + (100:ℝ) ^ 2 =
      (cellCoord 3 100 i) ^ 2 + (cellCoord 3 100 j) ^ 2 + 10000 := by ring
  rw [hbase]
  constructor
  · have hmono : ((cellCoord 3 100 i) ^ 2 + (cellCoord 3 100 j) ^ 2 + 10000) ^ (-3/2 : ℝ) ≥
        (10004.41045 : ℝ) ^ (-3/2 : ℝ) := by
      refine rpow_neg_three_half_antitone ?_ (by linarith)
      positivity
    refine le_trans ?_ hmono
    rw [show (-3/2 : ℝ) = -(3/2) by norm_num, Real.rpow_neg (by norm_num)]
    have h32 : (10004.41045 : ℝ) ^ (3/2 : ℝ) ≤ 10^9/999 :=
      rpow_three_half_le (by norm_num) (by norm_num) (by norm_num)
    have hpos : (0 : ℝ) < (10004.41045 : ℝ) ^ (3/2 : ℝ) :=
      Real.rpow_pos_of_pos (by norm_num) _
    rw [show (999 : ℝ)/10^9 = ((10:ℝ)^9/999)⁻¹ by norm_num]
    exact inv_anti₀ hpos h32
  · have hmono : ((cellCoord 3 100 i) ^ 2 + (cellCoord 3 100 j) ^ 2 + 10000) ^ (-3/2 : ℝ) ≤
        (10000 : ℝ) ^ (-3/2 : ℝ) :=
      rpow_neg_three_half_antitone (by norm_num) (by linarith)
    refine hmono.trans ?_
    rw [show (10000 : ℝ) = 100 ^ 2 by norm_num,
      sq_rpow_neg_three_half (by norm_num : (0:ℝ) ≤ 100)]
    norm_num

/-- The limit of one cell's scaled contribution: `z^2 * (z * (c+z^2)^(-3/2))
→ 1` as `z → ∞`, for any fixed horizontal offset `c ≥ 0`. -/
theorem tendsto_farfield_term {c : ℝ} (hc : 0 ≤ c) :
    Filter.Tendsto (fun z : ℝ => z ^ 2 * (z * ((c + z ^ 2) ^ (-3/2 : ℝ))))
      Filter.atTop (nhds 1) := by
  have hz2 : Filter.Tendsto (fun z : ℝ => z ^ 2) Filter.atTop Filter.atTop :=
    Filter.tendsto_pow_atTop (by norm_num)
  have hden : Filter.Tendsto (fun z : ℝ => c + z ^ 2) Filter.atTop Filter.atTop :=
    Filter.tendsto_atTop_add_const_left _ c hz2
  have hfrac : Filter.Tendsto (fun z : ℝ => c / (c + z ^ 2)) Filter.atTop (nhds 0) :=
    Filter.Tendsto.div_atTop tendsto_const_nhds hden
  have hratio : Filter.Tendsto (fun z : ℝ => 1 - c / (c + z ^ 2)) Filter.atTop (nhds 1) := by
    have := hfrac.const_sub 1
    simpa using this
  have hratio2 : Filter.Tendsto (fun z : ℝ => z ^ 2 / (c + z ^ 2)) Filter.atTop (nhds 1) := by
    refine hratio.congr' ?_
    filter_upwards [Filter.eventually_gt_atTop (0:ℝ)] with z hz
    have hden0 : (0 : ℝ) < c + z ^ 2 := by nlinarith
    field_simp
  have h32 := hratio2.rpow_const (p := (3/2 : ℝ)) (Or.inr (by norm_num))
  rw [Real.one_rpow] at h32
  refine h32.congr' ?_
  filter_upwards [Filter.eventually_gt_atTop (0:ℝ)] with z hz
  have hden0 : (0 : ℝ) < c + z ^ 2 := by nlinarith
  rw [Real.div_rpow (by positivity) hden0.le, sq_rpow_three_half hz.le,
    show (-3/2 : ℝ) = -(3/2) by norm_num, Real.rpow_neg hden0.le, div_eq_mul_inv]
  ring

/-- The scaled on-axis z-component of any plate converges to the total
charge over `4*pi*eps0`. -/
theorem tendsto_z2_Ez (sigma Lx Ly : ℝ) (Nx Ny : ℕ) (eps0 : ℝ)
    (hNx : 1 ≤ Nx) (hNy : 1 ≤ Ny) (he : 0 < eps0) :
    Filter.Tendsto
      (fun z : ℝ => z ^ 2 * (plateEfield sigma Lx Ly Nx Ny eps0 0 0 z).2.2)
      Filter.atTop (nhds (sigma * Lx * Ly / (4 * Real.pi * eps0))) := by
  have hNx0 : (Nx : ℝ) ≠ 0 := by
    have : Nx ≠ 0 := by omega
    exact_mod_cast this
  have hNy0 : (Ny : ℝ) ≠ 0 := by
    have : Ny ≠ 0 := by omega
    exact_mod_cast this
  have hsum : (∑ _j ∈ Finset.range Ny, ∑ _i ∈ Finset.range Nx,
      preFactor sigma Lx Ly Nx Ny eps0) = sigma * Lx * Ly / (4 * Real.pi * eps0) := by
    simp only [Finset.sum_const, Finset.card_range, nsmul_eq_mul]
    unfold preFactor cellCharge cellArea cellWidth
    have hpi := Real.pi_ne_zero
    field_simp
    ring
  have H : Filter.Tendsto
      (fun z : ℝ => ∑ j ∈ Finset.range Ny, ∑ i ∈ Finset.range Nx,
        preFactor sigma Lx Ly Nx Ny eps0 *
          (z ^ 2 * (z * (((0 - cellCoord Lx Nx i) ^ 2 + (0 - cellCoord Ly Ny j) ^ 2 + z ^ 2)
            ^ (-3/2 : ℝ)))))
      Filter.atTop
      (nhds (∑ _j ∈ Finset.range Ny, ∑ _i ∈ Finset.range Nx,
        preFactor sigma Lx Ly Nx Ny eps0)) := by
    refine tendsto_finset_sum _ fun j _ => tendsto_finset_sum _ fun i _ => ?_
    have hc : (0 : ℝ) ≤ (0 - cellCoord Lx Nx i) ^ 2 + (0 - cellCoord Ly Ny j) ^ 2 :=
      by positivity
    have hterm := (tendsto_farfield_term hc).const_mul
      (preFactor sigma Lx Ly Nx Ny eps0)
    rw [mul_one] at hterm
    exact hterm
  rw [← hsum]
  refine H.congr fun z => ?_
  unfold plateEfield Efield Rinv3
  dsimp only
  rw [Finset.mul_sum]
  refine Finset.sum_congr rfl fun j _ => ?_
  rw [Finset.mul_sum]
  exact Finset.sum_congr rfl fun i _ => by ring

/-- C9: for the plate with `chargeDensity = 1`, `Lx = Ly = 3`,
`Nx = Ny = 100` and any positive `eps0` (in particular its true physical
value), the evaluator's output at `(0, 0, 100)` matches the analytic
point-charge field `Q/(4*pi*eps0) * (0,0,100)/100^3` of the total charge
`Q = 9` to within relative tolerance `1/1000` (the x and y components are
exactly zero, like the point-charge ones); and in general the on-axis
field of any plate approaches the point-charge field of its total charge
as `z` grows: `z^2 * Ez(0,0,z) → sigma*Lx*Ly/(4*pi*eps0)`. -/
theorem farField_convergence (eps0 : ℝ) (he : 0 < eps0) :
    (plateEfield 1 3 3 100 100 eps0 0 0 100).1 =
        9 / (4 * Real.pi * eps0) * (0 / 100 ^ 3) ∧
    (plateEfield 1 3 3 100 100 eps0 0 0 100).2.1 =
        9 / (4 * Real.pi * eps0) * (0 / 100 ^ 3) ∧
    |(plateEfield 1 3 3 100 100 eps0 0 0 100).2.2 -
        9 / (4 * Real.pi * eps0) * (100 / 100 ^ 3)| ≤
      1/1000 * |9 / (4 * Real.pi * eps0) * (100 / 100 ^ 3)| ∧
    (∀ sigma Lx Ly : ℝ, ∀ Nx Ny : ℕ, 1 ≤ Nx → 1 ≤ Ny →
      Filter.Tendsto
        (fun z : ℝ => z ^ 2 * (plateEfield sigma Lx Ly Nx Ny eps0 0 0 z).2.2)
        Filter.atTop (nhds (sigma * Lx * Ly / (4 * Real.pi * eps0)))) := by
  have hpi := Real.pi_pos
  refine ⟨?_, ?_, ?_, fun sigma Lx Ly Nx Ny hNx hNy =>
    tendsto_z2_Ez sigma Lx Ly Nx Ny eps0 hNx hNy he⟩
  · rw [plateEfield_Ex_zero_on_axis]
    norm_num
  · rw [plateEfield_Ey_zero_on_axis]
    norm_num
  · -- abbreviate the double sum of kernels
    set T : ℝ := ∑ j ∈ Finset.range 100, ∑ i ∈ Finset.range 100,
      Rinv3 (0 - cellCoord 3 100 i) (0 - cellCoord 3 100 j) 100 with hT
    have hTlow : (999 : ℝ)/10^5 ≤ T := by
      rw [hT]
      calc (999 : ℝ)/10^5 =
          ∑ _j ∈ Finset.range 100, ∑ _i ∈ Finset.range 100, (999 : ℝ)/10^9 := by
            simp only [Finset.sum_const, Finset.card_range, nsmul_eq_mul]
            norm_num
        _ ≤ _ := by
            refine Finset.sum_le_sum fun j hj => Finset.sum_le_sum fun i hi => ?_
            exact (Rinv3_query_bounds (Finset.mem_range.mp hi)
              (Finset.mem_range.mp hj)).1
    have hThigh : T ≤ (1 : ℝ)/10^2 := by
      rw [hT]
      calc (∑ j ∈ Finset.range 100, ∑ i ∈ Finset.range 100,
            Rinv3 (0 - cellCoord 3 100 i) (0 - cellCoord 3 100 j) 100) ≤
          ∑ _j ∈ Finset.range 100, ∑ _i ∈ Finset.range 100, (1 : ℝ)/10^6 := by
            refine Finset.sum_le_sum fun j hj => Finset.sum_le_sum fun i hi => ?_
            exact (Rinv3_query_bounds (Finset.mem_range.mp hi)
              (Finset.mem_range.mp hj)).2
        _ = (1 : ℝ)/10^2 := by
            simp only [Finset.sum_const, Finset.card_range, nsmul_eq_mul]
            norm_num
    have hEz : (plateEfield 1 3 3 100 100 eps0 0 0 100).2.2 =
        preFactor 1 3 3 100 100 eps0 * 100 * T := by
      rw [hT]
      unfold plateEfield Efield
      dsimp only
      rw [Finset.mul_sum]
      refine Finset.sum_congr rfl fun j _ => ?_
      rw [Finset.mul_sum]
    have hpf : preFactor 1 3 3 100 100 eps0 = 9 / (40000 * Real.pi * eps0) := by
      unfold preFactor cellCharge cellArea cellWidth
      have hpi2 := Real.pi_ne_zero
      have he2 := ne_of_gt he
      push_cast
      field_simp
      ring
    have hEpt : 9 / (4 * Real.pi * eps0) * ((100 : ℝ) / 100 ^ 3) =
        9 / (40000 * Real.pi * eps0) := by
      have hpi2 := Real.pi_ne_zero
      have he2 := ne_of_gt he
      field_simp
      ring
    rw [hEz, hpf, hEpt]
    have hppos : (0 : ℝ) < 9 / (40000 * Real.pi * eps0) := by positivity
    have key : 9 / (40000 * Real.pi * eps0) * 100 * T -
        9 / (40000 * Real.pi * eps0) =
        9 / (40000 * Real.pi * eps0) * (100 * T - 1) := by ring
    rw [key, abs_mul, abs_of_pos hppos,
      mul_comm (1/(1000:ℝ)) (9 / (40000 * Real.pi * eps0))]
    refine mul_le_mul_of_nonneg_left ?_ hppos.le
    rw [abs_le]
    exact ⟨by linarith, by linarith⟩

/-- Witness for C9 at the physical value of the electric constant. -/
theorem farField_convergence_witness :
    (plateEfield 1 3 3 100 100 8.8541878128e-12 0 0 100).1 =
        9 / (4 * Real.pi * 8.8541878128e-12) * (0 / 100 ^ 3) ∧
    (plateEfield 1 3 3 100 100 8.8541878128e-12 0 0 100).2.1 =
        9 / (4 * Real.pi * 8.8541878128e-12) * (0 / 100 ^ 3) ∧
    |(plateEfield 1 3 3 100 100 8.8541878128e-12 0 0 100).2.2 -
        9 / (4 * Real.pi * 8.8541878128e-12) * (100 / 100 ^ 3)| ≤
      1/1000 * |9 / (4 * Real.pi * 8.8541878128e-12) * (100 / 100 ^ 3)| ∧
    (∀ sigma Lx Ly : ℝ, ∀ Nx Ny : ℕ, 1 ≤ Nx → 1 ≤ Ny →
      Filter.Tendsto
        (fun z : ℝ =>
          z ^ 2 * (plateEfield sigma Lx Ly Nx Ny 8.8541878128e-12 0 0 z).2.2)
        Filter.atTop
        (nhds (sigma * Lx * Ly / (4 * Real.pi * 8.8541878128e-12)))) :=
  farField_convergence 8.8541878128e-12 (by norm_num)

end EMtutor
